import Mathlib

/-!
Shallow embedding of the aggregated-signature protocol of
`src/src/protocols/aggsig/mod.rs` (multi-party-eddsa).

The external group arithmetic (curv's `Point<Ed25519>` / `Scalar<Ed25519>`)
is modelled abstractly, as the spec's external-interface section describes it:
scalars are integers modulo the order `l` of the Ed25519 prime-order subgroup,
and points form an additive commutative group that is a module over the
scalars, with a distinguished generator.  The external hash-to-scalar
primitive (SHA-512 followed by reduction) and the canonical point encoding
(`to_bytes(true)`) are abstract parameters `hash : List ℕ → Scalar` and
`enc : G → List ℕ`; byte strings are `List ℕ`.

Rust functions that can only exit abnormally by panicking (failed `assert!`,
out-of-bounds index) are embedded with an explicit `RustOutcome` codomain
whose `panicked` constructor marks that exit; everything else is a plain
function.
-/

set_option linter.unusedSectionVars false

namespace AggSig

/-- Order of the Ed25519 prime-order subgroup (the modulus of
curv's `Scalar<Ed25519>`). -/
def l : ℕ := 2 ^ 252 + 27742317777372353535851937790883648493

/-- curv `Scalar<Ed25519>`: integers modulo the subgroup order. -/
abbrev Scalar := ZMod l

/-- Outcome of a Rust function whose only abnormal exit is a panic
(a failed `assert!` or an out-of-bounds index): `panicked` is that exit,
not a returned value. -/
inductive RustOutcome (α : Type) where
  | ok (val : α)
  | panicked
deriving DecidableEq

/-- Modelled from the spec: `Signature` lives in `protocols/mod.rs`, which is
not under `src/`; the spec's data model says it is "a (Point, Scalar) pair —
the standard two-component signature representation". -/
structure Signature (G : Type) where
  R : G
  s : Scalar
deriving DecidableEq

/-- Modelled from the spec: the expanded private half of an
`ExpandedKeyPair` ("an expanded private scalar, a secret prefix byte
string used only to derive nonces"); the key-expansion primitive itself is
external. -/
structure ExpandedPrivateKey where
  private_key : Scalar
  prefixBytes : List ℕ

/-- Modelled from the spec: `ExpandedKeyPair` ("an expanded private scalar, a
secret prefix byte string …, and the corresponding public point"), defined in
`protocols/mod.rs`, which is not under `src/`. -/
structure ExpandedKeyPair (G : Type) where
  expanded_private_key : ExpandedPrivateKey
  public_key : G

/-- Modelled from the spec: `ProofError` is "a valueless failure signal for
verification failure" (`protocols/mod.rs`, not under `src/`). -/
structure ProofError where
deriving DecidableEq

/-- `KeyAgg` (src/src/protocols/aggsig/mod.rs:36-40): the aggregated public
key and the calling party's own aggregation coefficient. -/
structure KeyAgg (G : Type) where
  apk : G
  hash : Scalar
deriving DecidableEq

variable {G : Type} [AddCommGroup G] [Module Scalar G] [DecidableEq G]
variable (gen : G) (enc : G → List ℕ) (hash : List ℕ → Scalar)

/-- Modelled from the spec: the challenge `Signature::k` lives in
`protocols/mod.rs`, not under `src/`; the spec says
"k = ChallengeHash(R_tot, apk, message) (standard Ed25519-style challenge:
hash over the aggregate nonce point, aggregated key, and message, reduced to
a scalar, no extra domain tag)". -/
def Signature.k (R apk : G) (msg : List ℕ) : Scalar :=
  hash (enc R ++ enc apk ++ msg)

/-- The per-iteration hasher chain of `key_aggregation_n`
(src/src/protocols/aggsig/mod.rs:47-51):
`Sha512::new().chain(&[1]).chain(&*pk.to_bytes(true))` followed by an
`update` with every key's bytes in list order, reduced to a scalar — the
hash-to-scalar of the tag byte `1`, the bytes of the key being weighted,
then the bytes of every key of the ordered list. -/
def aggCoef (pks : List G) (p : G) : Scalar :=
  hash (1 :: (enc p ++ (pks.map enc).flatten))

/-- `KeyAgg::key_aggregation_n` (src/src/protocols/aggsig/mod.rs:43-63):
fold over the enumerated key list; each iteration computes the coefficient
hash (`aggCoef`), scales the current key by it and adds that to the running
sum, and records the hash when the iteration index equals `party_index`. -/
def key_aggregation_n (pks : List G) (party_index : ℕ) : KeyAgg G :=
  let final :=
    pks.enum.foldl
      (fun st ipk =>
        let h := aggCoef enc hash pks ipk.2
        (if ipk.1 = party_index then h else st.1, st.2 + h • ipk.2))
      ((0 : Scalar), (0 : G))
  { apk := final.2, hash := final.1 }

/-- `get_R_tot` (src/src/protocols/aggsig/mod.rs:112-115): `Rs[0]` (a panic
on an empty list) followed by a fold of group addition over the rest. -/
def get_R_tot (Rs : List G) : RustOutcome G :=
  match Rs with
  | [] => .panicked
  | r0 :: rest => .ok (rest.foldl (fun acc Ri => acc + Ri) r0)

/-- `partial_sign` (src/src/protocols/aggsig/mod.rs:117-133). -/
def partial_sign (r : Scalar) (keys : ExpandedKeyPair G) (a : Scalar)
    (R_tot : G) (agg_pubkey : G) (msg : List ℕ) : Signature G :=
  let k := Signature.k enc hash R_tot agg_pubkey msg
  let k_mul_sk := k * keys.expanded_private_key.private_key
  let k_mul_sk_mul_ai := k_mul_sk * a
  let s := r + k_mul_sk_mul_ai
  { R := R_tot, s := s }

/-- `add_signature_parts` (src/src/protocols/aggsig/mod.rs:161-172):
`sigs[0]` panics on an empty list; `assert!` that every later share carries
the first share's nonce point panics on a mismatch; otherwise the `s`
components are folded into a sum and the first nonce point is kept. -/
def add_signature_parts (sigs : List (Signature G)) : RustOutcome (Signature G) :=
  match sigs with
  | [] => .panicked
  | s0 :: rest =>
    if ∀ x ∈ rest, x.R = s0.R then
      .ok { R := s0.R, s := rest.foldl (fun acc si => acc + si.s) s0.s }
    else
      .panicked

/-- `hashed_pk` (src/src/protocols/aggsig/mod.rs:222-227): the per-signer
weight of the independent-nonce scheme, a hash of the tag byte `1` and the
bytes of that key alone. -/
def hashed_pk (pk : G) : Scalar :=
  hash (1 :: enc pk)

/-- `add_signature_parts_hashed` (src/src/protocols/aggsig/mod.rs:174-188):
a fold over `sigs.iter().zip(pks)` accumulating `h • s` and `h • R`
(`zip` silently stops at the shorter list). -/
def add_signature_parts_hashed (sigs : List (Signature G)) (pks : List G) :
    Signature G :=
  let final :=
    (sigs.zip pks).foldl
      (fun st spk =>
        let h := hashed_pk enc hash spk.2
        (st.1 + h * spk.1.s, st.2 + h • spk.1.R))
      ((0 : Scalar), (0 : G))
  { R := final.2, s := final.1 }

/-- `add_pk_parts_hashed` (src/src/protocols/aggsig/mod.rs:190-197). -/
def add_pk_parts_hashed (pks : List G) : G :=
  pks.foldl (fun acc pk => acc + hashed_pk enc hash pk • pk) 0

/-- `verify_partial_sig` (src/src/protocols/aggsig/mod.rs:199-220). -/
def verify_partial_sig (sig : Signature G) (message : List ℕ) (a : Scalar)
    (partial_R : G) (partial_public_key : G) (agg_pubkey : G) :
    Except ProofError Unit :=
  let k := Signature.k enc hash sig.R agg_pubkey message
  let A := partial_public_key
  let kA := a • k • A
  let R_plus_kA := kA + partial_R
  let sG := sig.s • gen
  if R_plus_kA = sG then Except.ok () else Except.error ⟨⟩

/-- A concrete instantiation of the abstract point encoding, used to
evaluate the development at concrete inputs.  The group is `ZMod l` itself —
the exponent representation of the cyclic prime-order subgroup, with
generator any unit — and a point is encoded as the single "digit" of its
canonical value. -/
def encZ (x : ZMod l) : List ℕ := [x.val]

/-- A concrete instantiation of the abstract hash-to-scalar primitive, used
to evaluate the development at concrete inputs. -/
def hashZ (bs : List ℕ) : Scalar := (bs.sum : ℕ)

/-! ### General list lemmas -/

theorem foldl_add_eq {M : Type} [AddCommMonoid M] (xs : List M) :
    ∀ a : M, xs.foldl (fun x y => x + y) a = a + xs.sum := by
  induction xs with
  | nil => intro a; simp
  | cons x xs ih =>
      intro a
      rw [List.foldl_cons, ih, List.sum_cons, add_assoc]

theorem getD_map_of_lt {α β : Type} (f : α → β) (xs : List α) (d : α) (d' : β)
    {i : ℕ} (hi : i < xs.length) :
    (xs.map f).getD i d' = f (xs.getD i d) := by
  rw [List.getD_eq_getElem?_getD, List.getElem?_map, List.getD_eq_getElem?_getD,
    List.getElem?_eq_getElem hi]
  simp

theorem map_range_zip {α β : Type} (d : α) (g : α → α → β) :
    ∀ (xs ys : List α), ys.length = xs.length →
      (List.range xs.length).map (fun i => g (xs.getD i d) (ys.getD i d))
        = (xs.zip ys).map (fun p => g p.1 p.2) := by
  intro xs
  induction xs with
  | nil => intro ys h; simp
  | cons x xs ih =>
      intro ys h
      cases ys with
      | nil => simp at h
      | cons y ys =>
          simp only [List.length_cons] at h
          simp only [List.length_cons, List.range_succ_eq_map, List.map_cons, List.map_map,
            List.getD_cons_zero, List.zip_cons_cons]
          congr 1
          rw [← ih ys (by omega)]
          apply List.map_congr_left
          intro i _
          simp [Function.comp, List.getD_cons_succ]

/-! ### Characterization of key_aggregation_n -/

theorem keyAggFold (pks : List G) (pi : ℕ) (xs : List G) :
    ∀ (k : ℕ) (h0 : Scalar) (s0 : G),
      (List.enumFrom k xs).foldl
          (fun st ipk =>
            (if ipk.1 = pi then aggCoef enc hash pks ipk.2 else st.1,
             st.2 + aggCoef enc hash pks ipk.2 • ipk.2))
          (h0, s0)
        = (if k ≤ pi ∧ pi < k + xs.length then aggCoef enc hash pks (xs.getD (pi - k) 0)
             else h0,
           s0 + (xs.map (fun p => aggCoef enc hash pks p • p)).sum) := by
  induction xs with
  | nil =>
      intro k h0 s0
      simp only [List.enumFrom, List.foldl_nil, List.length_nil, List.map_nil, List.sum_nil,
        add_zero]
      rw [if_neg (by omega)]
  | cons x xs ih =>
      intro k h0 s0
      rw [List.enumFrom_cons, List.foldl_cons, ih]
      simp only [List.length_cons, List.map_cons, List.sum_cons]
      rw [Prod.mk.injEq]
      constructor
      · by_cases hk : k = pi
        · subst hk
          rw [if_neg (by omega), if_pos rfl, if_pos (by omega)]
          have hz : k - k = 0 := by omega
          rw [hz, List.getD_cons_zero]
        · by_cases hrange : k + 1 ≤ pi ∧ pi < k + 1 + xs.length
          · rw [if_pos hrange, if_pos (by omega)]
            have hs : pi - k = (pi - (k + 1)) + 1 := by omega
            rw [hs, List.getD_cons_succ]
          · rw [if_neg hrange, if_neg hk, if_neg (by omega)]
      · rw [add_assoc]

theorem key_aggregation_n_eq (pks : List G) (pi : ℕ) :
    key_aggregation_n enc hash pks pi =
      { apk := (pks.map (fun p => aggCoef enc hash pks p • p)).sum,
        hash := if pi < pks.length then aggCoef enc hash pks (pks.getD pi 0) else 0 } := by
  simp only [key_aggregation_n]
  rw [List.enum_eq_enumFrom, keyAggFold enc hash pks pi pks 0 0 0]
  simp only [Nat.zero_le, true_and, Nat.zero_add, Nat.sub_zero, zero_add]

theorem foldl_add_proj {α M : Type} [AddCommMonoid M] (f : α → M) (xs : List α) :
    ∀ a : M, xs.foldl (fun acc x => acc + f x) a = a + (xs.map f).sum := by
  induction xs with
  | nil => intro a; simp
  | cons x xs ih =>
      intro a
      rw [List.foldl_cons, ih, List.map_cons, List.sum_cons, add_assoc]

theorem zip_take {α β : Type} (xs : List α) :
    ∀ ys : List β, xs.zip ys = (xs.take ys.length).zip (ys.take xs.length) := by
  induction xs with
  | nil => intro ys; simp
  | cons x xs ih =>
      intro ys
      cases ys with
      | nil => simp
      | cons y ys =>
          simp only [List.length_cons, List.zip_cons_cons, List.take_succ_cons]
          rw [← ih ys]

/-! ### Characterization of the signature combiners -/

theorem add_signature_parts_ok (s0 : Signature G) (rest : List (Signature G))
    (h : ∀ x ∈ rest, x.R = s0.R) :
    add_signature_parts (s0 :: rest) =
      .ok { R := s0.R, s := s0.s + (rest.map (fun x => x.s)).sum } := by
  simp only [add_signature_parts]
  rw [if_pos h, foldl_add_proj]

theorem hashedFold (sp : List (Signature G × G)) :
    ∀ (a0 : Scalar) (R0 : G),
      sp.foldl
          (fun st spk =>
            (st.1 + hashed_pk enc hash spk.2 * spk.1.s,
             st.2 + hashed_pk enc hash spk.2 • spk.1.R))
          (a0, R0)
        = (a0 + (sp.map (fun spk => hashed_pk enc hash spk.2 * spk.1.s)).sum,
           R0 + (sp.map (fun spk => hashed_pk enc hash spk.2 • spk.1.R)).sum) := by
  induction sp with
  | nil => intro a0 R0; simp
  | cons x xs ih =>
      intro a0 R0
      rw [List.foldl_cons, ih]
      simp only [List.map_cons, List.sum_cons]
      rw [Prod.mk.injEq]
      exact ⟨by rw [add_assoc], by rw [add_assoc]⟩

theorem add_signature_parts_hashed_eq (sigs : List (Signature G)) (pks : List G) :
    add_signature_parts_hashed enc hash sigs pks =
      { R := ((sigs.zip pks).map (fun spk => hashed_pk enc hash spk.2 • spk.1.R)).sum,
        s := ((sigs.zip pks).map (fun spk => hashed_pk enc hash spk.2 * spk.1.s)).sum } := by
  simp only [add_signature_parts_hashed]
  rw [hashedFold]
  simp

theorem add_pk_parts_hashed_eq (pks : List G) :
    add_pk_parts_hashed enc hash pks
      = (pks.map (fun pk => hashed_pk enc hash pk • pk)).sum := by
  simp only [add_pk_parts_hashed]
  rw [foldl_add_proj, zero_add]

theorem keyAgg_apk (pks : List G) (i : ℕ) :
    (key_aggregation_n enc hash pks i).apk
      = (pks.map (fun p => aggCoef enc hash pks p • p)).sum := by
  rw [key_aggregation_n_eq]

theorem keyAgg_hash_of_lt (pks : List G) (i : ℕ) (hi : i < pks.length) :
    (key_aggregation_n enc hash pks i).hash = aggCoef enc hash pks (pks.getD i 0) := by
  rw [key_aggregation_n_eq, if_pos hi]

theorem add_signature_parts_of_map {α : Type} (t : α → Scalar) (R0 : G)
    (x : α) (xs : List α) :
    add_signature_parts ((x :: xs).map (fun a => ({ R := R0, s := t a } : Signature G)))
      = .ok { R := R0, s := ((x :: xs).map t).sum } := by
  rw [List.map_cons, add_signature_parts_ok _ _
    (fun y hy => by obtain ⟨p, _, rfl⟩ := List.mem_map.mp hy; rfl)]
  rw [List.map_map, List.map_cons, List.sum_cons]
  rfl

theorem shares_sum_eq (kk : Scalar) (f : G → Scalar) :
    ∀ (sks rs : List Scalar), rs.length = sks.length →
      ((sks.zip rs).map (fun p => p.2 + kk * p.1 * f (p.1 • gen))).sum • gen
        = rs.sum • gen + kk • (sks.map (fun sk => f (sk • gen) • (sk • gen))).sum := by
  intro sks
  induction sks with
  | nil =>
      intro rs h
      have hrs : rs = [] := List.length_eq_zero.mp (by simpa using h)
      subst hrs
      simp
  | cons sk sks ih =>
      intro rs h
      cases rs with
      | nil => simp at h
      | cons r rs' =>
          simp only [List.length_cons] at h
          have h' : rs'.length = sks.length := by omega
          simp only [List.zip_cons_cons, List.map_cons, List.sum_cons]
          rw [add_smul, add_smul, ih rs' h', smul_add]
          have hx : (kk * sk * f (sk • gen)) • gen = kk • (f (sk • gen) • (sk • gen)) := by
            rw [mul_assoc, mul_comm sk (f (sk • gen)), mul_smul, mul_smul]
          rw [hx, add_smul]
          abel

/-! ### Claim theorems -/

/-- C1: for every n ≥ 1, message, and keypairs with `pk_i = sk_i • Generator`:
with every coefficient and the aggregated key computed by
`key_aggregation_n` on the same ordered key list, nonce points
`R_i = r_i • Generator` summed by `get_R_tot` into `R_tot`, each share
produced by `partial_sign`, and the shares combined by
`add_signature_parts`, the resulting signature satisfies the ordinary
single-key verification equation
`s • Generator = R + k(R, apk, msg) • apk` against the aggregated key and
the message. -/
theorem C1_protocol_signature_verifies
    (msg : List ℕ) (sks rs : List Scalar) (prefs : List (List ℕ))
    (pks : List G) (apk Rtot : G)
    (hn : 1 ≤ sks.length)
    (hlen : rs.length = sks.length)
    (hpks : pks = sks.map (fun sk => sk • gen))
    (hapk : apk = (key_aggregation_n enc hash pks 0).apk)
    (hRtot : get_R_tot (rs.map (fun r => r • gen)) = .ok Rtot) :
    ∃ σ : Signature G,
      add_signature_parts ((List.range sks.length).map (fun i =>
          partial_sign enc hash (rs.getD i 0)
            { expanded_private_key :=
                { private_key := sks.getD i 0, prefixBytes := prefs.getD i [] },
              public_key := pks.getD i 0 }
            ((key_aggregation_n enc hash pks i).hash) Rtot apk msg)) = .ok σ
        ∧ σ.s • gen = σ.R + Signature.k enc hash σ.R apk msg • apk := by
  have hshares : (List.range sks.length).map (fun i =>
        partial_sign enc hash (rs.getD i 0)
          { expanded_private_key :=
              { private_key := sks.getD i 0, prefixBytes := prefs.getD i [] },
            public_key := pks.getD i 0 }
          ((key_aggregation_n enc hash pks i).hash) Rtot apk msg)
      = (sks.zip rs).map (fun p =>
          ({ R := Rtot,
             s := p.2 + Signature.k enc hash Rtot apk msg * p.1
                    * aggCoef enc hash pks (p.1 • gen) } : Signature G)) := by
    refine Eq.trans ?_ (map_range_zip (0 : Scalar)
      (fun sk r =>
        ({ R := Rtot,
           s := r + Signature.k enc hash Rtot apk msg * sk
                  * aggCoef enc hash pks (sk • gen) } : Signature G)) sks rs hlen)
    apply List.map_congr_left
    intro i hi
    have hi' : i < sks.length := List.mem_range.mp hi
    have hip : i < pks.length := by rw [hpks, List.length_map]; exact hi'
    have hgetD : pks.getD i 0 = (sks.getD i 0) • gen := by
      rw [hpks]
      exact getD_map_of_lt (fun sk => sk • gen) sks 0 0 hi'
    rw [keyAgg_hash_of_lt enc hash pks i hip, hgetD]
    rfl
  have hapk2 : apk = (sks.map (fun sk =>
      aggCoef enc hash pks (sk • gen) • (sk • gen))).sum := by
    rw [hapk, keyAgg_apk enc hash pks 0]
    nth_rewrite 2 [hpks]
    rw [List.map_map]
    rfl
  obtain ⟨sk0, sks', hsks⟩ := List.exists_cons_of_ne_nil (List.length_pos.mp hn)
  obtain ⟨r0, rs', hrs⟩ := List.exists_cons_of_ne_nil
    (List.length_pos.mp (show 0 < rs.length by omega))
  subst hsks
  subst hrs
  have hR : Rtot = ((r0 :: rs').sum) • gen := by
    simp only [get_R_tot, List.map_cons] at hRtot
    rw [RustOutcome.ok.injEq] at hRtot
    rw [← hRtot, foldl_add_eq, List.sum_cons, add_smul, List.sum_smul]
  rw [hshares, List.zip_cons_cons]
  refine ⟨_, add_signature_parts_of_map
      (fun p : Scalar × Scalar =>
        p.2 + Signature.k enc hash Rtot apk msg * p.1 * aggCoef enc hash pks (p.1 • gen))
      Rtot (sk0, r0) (sks'.zip rs'), ?_⟩
  show (((sk0, r0) :: sks'.zip rs').map
      (fun p => p.2 + Signature.k enc hash Rtot apk msg * p.1
         * aggCoef enc hash pks (p.1 • gen))).sum • gen
    = Rtot + Signature.k enc hash Rtot apk msg • apk
  rw [← List.zip_cons_cons, shares_sum_eq gen (Signature.k enc hash Rtot apk msg)
      (aggCoef enc hash pks) (sk0 :: sks') (r0 :: rs') hlen]
  rw [hapk2, hR]

/-- C2: for every ordered key list and in-range `party_index`,
`key_aggregation_n` returns the `KeyAgg` whose `apk` is the sum over the list
of each key scaled by its coefficient — the domain-separated hash-to-scalar
of the tag byte `1`, that key's bytes, then the bytes of every key of the
ordered list — and whose `hash` field is the coefficient of the key at
`party_index`.  Being a Lean function of `(pks, party_index)`, it is pure and
deterministic. -/
theorem C2_key_aggregation_characterization
    (pks : List G) (party_index : ℕ) (hlt : party_index < pks.length) :
    key_aggregation_n enc hash pks party_index =
      { apk := (pks.map (fun p => aggCoef enc hash pks p • p)).sum,
        hash := aggCoef enc hash pks (pks.getD party_index 0) } := by
  rw [key_aggregation_n_eq, if_pos hlt]

/-- C9: the aggregated public key computed by `key_aggregation_n` depends
only on the ordered key list, not on which party computes it: any two
indices (in range or not) give the same `apk`. -/
theorem C9_apk_independent_of_index (pks : List G) (i j : ℕ) :
    (key_aggregation_n enc hash pks i).apk = (key_aggregation_n enc hash pks j).apk := by
  rw [key_aggregation_n_eq, key_aggregation_n_eq]

/-- C10: for a non-empty key list and a `party_index` at or past the end of
the list, `key_aggregation_n` returns normally: its `apk` equals the `apk`
of any other index and its `hash` field is the zero scalar (the initial
`my_hash` that no iteration overwrites). -/
theorem C10_out_of_range_index
    (pks : List G) (i : ℕ) (hne : pks ≠ []) (hge : pks.length ≤ i) :
    (∀ j : ℕ,
        (key_aggregation_n enc hash pks i).apk = (key_aggregation_n enc hash pks j).apk)
      ∧ (key_aggregation_n enc hash pks i).hash = 0 := by
  constructor
  · intro j
    rw [key_aggregation_n_eq, key_aggregation_n_eq]
  · rw [key_aggregation_n_eq, if_neg (by omega)]

/-- C4: `partial_sign` returns the share whose `s` component is
`r + k · sk · a` — `k` the challenge hash of `(R_tot, apk, msg)` and `sk`
the local expanded private scalar — and whose `R` component is exactly the
`R_tot` argument. -/
theorem C4_partial_sign_share_form
    (r : Scalar) (keys : ExpandedKeyPair G) (a : Scalar) (R_tot apk : G) (msg : List ℕ) :
    (partial_sign enc hash r keys a R_tot apk msg).s
        = r + Signature.k enc hash R_tot apk msg * keys.expanded_private_key.private_key * a
      ∧ (partial_sign enc hash r keys a R_tot apk msg).R = R_tot :=
  ⟨rfl, rfl⟩

/-- C5: `verify_partial_sig` succeeds exactly when
`s · Generator = a · k · partial_pubkey + partial_R` with `k` recomputed
from `sig.R`, `apk` and the message; in every other case it returns the
`ProofError` failure value. -/
theorem C5_verify_partial_sig_iff
    (sig : Signature G) (msg : List ℕ) (a : Scalar) (partial_R A apk : G) :
    (verify_partial_sig gen enc hash sig msg a partial_R A apk = Except.ok () ↔
        sig.s • gen = a • Signature.k enc hash sig.R apk msg • A + partial_R)
      ∧ (verify_partial_sig gen enc hash sig msg a partial_R A apk = Except.error ⟨⟩ ↔
        ¬ sig.s • gen = a • Signature.k enc hash sig.R apk msg • A + partial_R) := by
  simp only [verify_partial_sig]
  by_cases h : a • Signature.k enc hash sig.R apk msg • A + partial_R = sig.s • gen
  · rw [if_pos h]
    exact ⟨iff_of_true rfl h.symm, iff_of_false (by simp) (fun hc => hc h.symm)⟩
  · rw [if_neg h]
    exact ⟨iff_of_false (by simp) (fun hc => h hc.symm), iff_of_true rfl (fun hc => h hc.symm)⟩

/-- C6: on a non-empty share list whose shares all carry the nonce point of
the first share, `add_signature_parts` returns the signature whose `s` is
the sum of all the shares' `s` components and whose `R` is that common
nonce point, unchanged. -/
theorem C6_combine_sums_shares (s0 : Signature G) (rest : List (Signature G))
    (h : ∀ x ∈ rest, x.R = s0.R) :
    add_signature_parts (s0 :: rest) =
      .ok { R := s0.R, s := ((s0 :: rest).map (fun x => x.s)).sum } := by
  rw [add_signature_parts_ok s0 rest h, List.map_cons, List.sum_cons]

/-- C3 (amended): when some share's nonce point differs from the first
share's, `add_signature_parts` detects the mismatch and exits by the failed
`assert!` — a panic, modelled as the `panicked` outcome — returning no
signature; it does not return a typed error value (its Rust return type,
`Signature`, has no error branch). -/
theorem C3_mismatch_asserts (s0 : Signature G) (rest : List (Signature G))
    (h : ∃ x ∈ rest, x.R ≠ s0.R) :
    add_signature_parts (s0 :: rest) = .panicked := by
  simp only [add_signature_parts]
  rw [if_neg]
  intro hall
  obtain ⟨x, hx, hne⟩ := h
  exact hne (hall x hx)

/-- C7 (amended): `add_signature_parts_hashed` never fails: on lists of any
two lengths it silently returns the aggregate computed over the zipped
common prefix, the tail of the longer list being ignored. -/
theorem C7_amended_zip_truncates (sigs : List (Signature G)) (pks : List G) :
    add_signature_parts_hashed enc hash sigs pks
      = add_signature_parts_hashed enc hash (sigs.take pks.length) (pks.take sigs.length) := by
  simp only [add_signature_parts_hashed]
  rw [zip_take]

/-- C8: with equal-length lists, `add_signature_parts_hashed` returns the
signature with `R = Σ hᵢ • Rᵢ` and `s = Σ hᵢ · sᵢ`, and
`add_pk_parts_hashed` returns `Σ hᵢ • pkᵢ` with the same weights, where the
weight `hashed_pk pkᵢ` is the domain-separated hash-to-scalar of `pkᵢ`
alone. -/
theorem C8_hashed_combination (sigs : List (Signature G)) (pks : List G)
    (hlen : sigs.length = pks.length) :
    add_signature_parts_hashed enc hash sigs pks =
      { R := ((sigs.zip pks).map (fun spk => hashed_pk enc hash spk.2 • spk.1.R)).sum,
        s := ((sigs.zip pks).map (fun spk => hashed_pk enc hash spk.2 * spk.1.s)).sum }
    ∧ add_pk_parts_hashed enc hash pks = (pks.map (fun pk => hashed_pk enc hash pk • pk)).sum
    ∧ ∀ pk : G, hashed_pk enc hash pk = hash (1 :: enc pk) :=
  ⟨add_signature_parts_hashed_eq enc hash sigs pks, add_pk_parts_hashed_eq enc hash pks,
    fun _ => rfl⟩

/-! ### Counterexamples -/

/-- C3 counterexample: on two shares whose nonce points differ, the claim
says `add_signature_parts` returns an explicit, typed, recoverable error
value; in fact the failed `assert!` panics — the function's Rust return
type `Signature` has no error branch at all — modelled by the `panicked`
outcome, which carries no value of any kind. -/
theorem C3_counterexample :
    add_signature_parts [({ R := 1, s := 0 } : Signature (ZMod l)), { R := 2, s := 0 }]
      = .panicked := by decide

/-- C7 counterexample: with a two-share list and a one-key list — lengths
differing, an invalid input set — `add_signature_parts_hashed` does not
fail: it returns a usable-looking `Signature` computed from only the first
share (the zipped common prefix), identical to its output on the truncated
input and equal to a concrete aggregate value. -/
theorem C7_counterexample :
    ([({ R := 5, s := 7 } : Signature (ZMod l)), { R := 11, s := 13 }].length
        ≠ ([(2 : ZMod l)] : List (ZMod l)).length)
    ∧ add_signature_parts_hashed encZ hashZ
          [({ R := 5, s := 7 } : Signature (ZMod l)), { R := 11, s := 13 }] [(2 : ZMod l)]
        = add_signature_parts_hashed encZ hashZ
            [({ R := 5, s := 7 } : Signature (ZMod l))] [(2 : ZMod l)]
    ∧ add_signature_parts_hashed encZ hashZ
          [({ R := 5, s := 7 } : Signature (ZMod l)), { R := 11, s := 13 }] [(2 : ZMod l)]
        = { R := 15, s := 21 } :=
  ⟨by decide, rfl, by decide⟩

/-! ### Witnesses -/

/-- Witness for C1 at a one-party run: generator 2, private key 3, nonce 5,
message `[7]`. -/
theorem C1_witness :
    ((1 : ℕ) ≤ [(3 : ZMod l)].length)
    ∧ ∃ σ : Signature (ZMod l),
        add_signature_parts ((List.range [(3 : ZMod l)].length).map (fun i =>
            partial_sign encZ hashZ ([(5 : ZMod l)].getD i 0)
              { expanded_private_key :=
                  { private_key := [(3 : ZMod l)].getD i 0,
                    prefixBytes := [([] : List ℕ)].getD i [] },
                public_key := [(3 : ZMod l) • (2 : ZMod l)].getD i 0 }
              ((key_aggregation_n encZ hashZ [(3 : ZMod l) • (2 : ZMod l)] i).hash)
              ((5 : ZMod l) • (2 : ZMod l))
              ((key_aggregation_n encZ hashZ [(3 : ZMod l) • (2 : ZMod l)] 0).apk)
              [7])) = .ok σ
          ∧ σ.s • (2 : ZMod l)
              = σ.R + Signature.k encZ hashZ σ.R
                    ((key_aggregation_n encZ hashZ [(3 : ZMod l) • (2 : ZMod l)] 0).apk) [7]
                  • ((key_aggregation_n encZ hashZ [(3 : ZMod l) • (2 : ZMod l)] 0).apk) :=
  ⟨by decide,
    C1_protocol_signature_verifies (2 : ZMod l) encZ hashZ [7] [3] [5] [[]]
      [(3 : ZMod l) • (2 : ZMod l)]
      ((key_aggregation_n encZ hashZ [(3 : ZMod l) • (2 : ZMod l)] 0).apk)
      ((5 : ZMod l) • (2 : ZMod l)) (by decide) rfl rfl rfl rfl⟩

/-- Witness for C2 at a two-key list and index 1. -/
theorem C2_witness :
    ((1 : ℕ) < [(5 : ZMod l), 7].length)
    ∧ key_aggregation_n encZ hashZ [(5 : ZMod l), 7] 1 =
        { apk := ([(5 : ZMod l), 7].map
            (fun p => aggCoef encZ hashZ [(5 : ZMod l), 7] p • p)).sum,
          hash := aggCoef encZ hashZ [(5 : ZMod l), 7] ([(5 : ZMod l), 7].getD 1 0) } :=
  ⟨by decide, C2_key_aggregation_characterization encZ hashZ [5, 7] 1 (by decide)⟩

/-- Witness for C3 (amended) at two shares with differing nonce points. -/
theorem C3_witness :
    (∃ x ∈ [({ R := 2, s := 0 } : Signature (ZMod l))],
        x.R ≠ ({ R := 1, s := 0 } : Signature (ZMod l)).R)
    ∧ add_signature_parts
        (({ R := 1, s := 0 } : Signature (ZMod l)) :: [{ R := 2, s := 0 }]) = .panicked :=
  ⟨by decide, C3_mismatch_asserts ({ R := 1, s := 0 } : Signature (ZMod l))
    [{ R := 2, s := 0 }] (by decide)⟩

/-- Witness for C6 at two shares carrying the same nonce point. -/
theorem C6_witness :
    (∀ x ∈ [({ R := 3, s := 4 } : Signature (ZMod l))],
        x.R = ({ R := 3, s := 9 } : Signature (ZMod l)).R)
    ∧ add_signature_parts
          (({ R := 3, s := 9 } : Signature (ZMod l)) :: [{ R := 3, s := 4 }])
        = .ok { R := ({ R := 3, s := 9 } : Signature (ZMod l)).R,
                s := ((({ R := 3, s := 9 } : Signature (ZMod l)) :: [{ R := 3, s := 4 }]).map
                  (fun x => x.s)).sum } :=
  ⟨by decide, C6_combine_sums_shares ({ R := 3, s := 9 } : Signature (ZMod l))
    [{ R := 3, s := 4 }] (by decide)⟩

/-- Witness for C8 at a one-share, one-key input. -/
theorem C8_witness :
    ([({ R := 2, s := 3 } : Signature (ZMod l))].length = ([(5 : ZMod l)] : List (ZMod l)).length)
    ∧ ∀ pk : ZMod l, hashed_pk encZ hashZ pk = hashZ (1 :: encZ pk) :=
  ⟨rfl, (C8_hashed_combination encZ hashZ [{ R := 2, s := 3 }] [5] rfl).2.2⟩

/-- Witness for C10 at a one-key list and the out-of-range index 5. -/
theorem C10_witness :
    (([(3 : ZMod l)] : List (ZMod l)) ≠ [] ∧ ([(3 : ZMod l)] : List (ZMod l)).length ≤ 5)
    ∧ (key_aggregation_n encZ hashZ [(3 : ZMod l)] 5).hash = 0 :=
  ⟨⟨by decide, by decide⟩,
    (C10_out_of_range_index encZ hashZ [3] 5 (by decide) (by decide)).2⟩

end AggSig
